import Mathlib

/-!
Verification of the mindmap tree-store and branch-colorizer logic.

The definitions below are shallow embeddings of the TypeScript sources:
  - src/src/components/MindMapEditor.tsx (tree mutations, cycle check, drag handlers)
  - src/unnamed/part_001 (a second MindMapEditor variant with a root special case
    in handleCreateSibling)
  - src/src/lib/colors.ts (branch colorizer, first document in the file)
  - the storage module embedded at the end of src/src/lib/colors.ts
    (interfaces MindMapNode/MindMapEdge/MindMap and the storage object)

Ids are strings in the source (generateId produces random strings); the random
generator is modelled by passing the fresh ids as explicit parameters.
Positions are floating point in the source; every position computation in the
translated handlers is an addition or subtraction of small integer constants,
so positions are modelled as integers.  React state updates (setNodes/setEdges)
are modelled as returning the updated state record.
-/

/-- MindMapNode interface from the storage module: id, text, x, y, children
(ordered list of child ids), optional collapsed flag. -/
structure MindMapNode where
  id : String
  text : String
  x : Int
  y : Int
  children : List String
  collapsed : Option Bool
deriving DecidableEq

/-- MindMapEdge interface from the storage module.  The source field names are
id, from, to; from is a reserved word in Lean, hence fromId/toId. -/
structure MindMapEdge where
  id : String
  fromId : String
  toId : String
deriving DecidableEq

/-- The pair of React state variables nodes/edges held by MindMapEditor. -/
structure EditorState where
  nodes : List MindMapNode
  edges : List MindMapEdge
deriving DecidableEq

/-- handleCreateChild from src/src/components/MindMapEditor.tsx lines 64-93.
Fails silently when parentId is absent; otherwise appends childId to the
children of the parent, appends the new child node, and appends one new edge
parent -> child. -/
def handleCreateChild (st : EditorState) (parentId childId edgeId : String) : EditorState :=
  match st.nodes.find? (fun n => n.id == parentId) with
  | none => st
  | some parent =>
    let childNode : MindMapNode := ⟨childId, "New Node", parent.x + 200, parent.y + 100, [], none⟩
    let newEdge : MindMapEdge := ⟨edgeId, parentId, childId⟩
    let updatedNodes := st.nodes.map (fun node =>
      if node.id == parentId then { node with children := node.children ++ [childId] } else node)
    ⟨updatedNodes ++ [childNode], st.edges ++ [newEdge]⟩

/-- handleCreateSibling from src/src/components/MindMapEditor.tsx lines 95-130.
Looks up the incoming edge of nodeId to find the parent; when nodeId has no
incoming edge (in particular when nodeId is the root) the handler returns
without changing anything. -/
def handleCreateSibling (st : EditorState) (nodeId siblingId edgeId : String) : EditorState :=
  match st.nodes.find? (fun n => n.id == nodeId) with
  | none => st
  | some node =>
    match st.edges.find? (fun e => e.toId == nodeId) with
    | none => st
    | some parentEdge =>
      match st.nodes.find? (fun n => n.id == parentEdge.fromId) with
      | none => st
      | some _ =>
        let siblingNode : MindMapNode := ⟨siblingId, "New Node", node.x + 200, node.y, [], none⟩
        let newEdge : MindMapEdge := ⟨edgeId, parentEdge.fromId, siblingId⟩
        let updatedNodes := st.nodes.map (fun n =>
          if n.id == parentEdge.fromId then { n with children := n.children ++ [siblingId] } else n)
        ⟨updatedNodes ++ [siblingNode], st.edges ++ [newEdge]⟩

/-- handleCreateSibling from src/unnamed/part_001 lines 101-180 (the second
MindMapEditor variant).  This variant special-cases the root: when nodeId is
the id of the first node it creates a new child of the root (positioned to the
left of the root) instead of failing. -/
def handleCreateSiblingV2 (st : EditorState) (nodeId siblingId edgeId : String) : EditorState :=
  match st.nodes.find? (fun n => n.id == nodeId) with
  | none => st
  | some node =>
    match st.nodes.head? with
    | none => st
    | some rootNode =>
      if node.id == rootNode.id then
        let siblingNode : MindMapNode := ⟨siblingId, "New Node", rootNode.x - 250, rootNode.y + 100, [], none⟩
        let newEdge : MindMapEdge := ⟨edgeId, rootNode.id, siblingId⟩
        let updatedNodes := st.nodes.map (fun n =>
          if n.id == rootNode.id then { n with children := n.children ++ [siblingId] } else n)
        ⟨updatedNodes ++ [siblingNode], st.edges ++ [newEdge]⟩
      else
        match st.edges.find? (fun e => e.toId == nodeId) with
        | none => st
        | some parentEdge =>
          match st.nodes.find? (fun n => n.id == parentEdge.fromId) with
          | none => st
          | some _ =>
            let sx : Int := if node.x < rootNode.x then node.x - 250 else node.x + 250
            let siblingNode : MindMapNode := ⟨siblingId, "New Node", sx, node.y, [], none⟩
            let newEdge : MindMapEdge := ⟨edgeId, parentEdge.fromId, siblingId⟩
            let updatedNodes := st.nodes.map (fun n =>
              if n.id == parentEdge.fromId then { n with children := n.children ++ [siblingId] } else n)
            ⟨updatedNodes ++ [siblingNode], st.edges ++ [newEdge]⟩

/-- The recursive findDescendants closure inside handleDeleteNode
(src/src/components/MindMapEditor.tsx lines 133-141): add id to the set, then
recurse into the children of the node with that id (if it exists).  The JS
recursion has no explicit bound; the fuel parameter models the recursion depth,
and handleDeleteNode below supplies fuel nodes.length + 1, which is enough for
every input on which the JS recursion terminates (on a tree the depth of the
walk is at most the number of nodes).  The JS Set is modelled as a
duplicate-free list in insertion order. -/
def findDescendants (nodes : List MindMapNode) (fuel : Nat) (acc : List String) (id : String) : List String :=
  match fuel with
  | 0 => acc
  | f + 1 =>
    let acc' := if acc.contains id then acc else acc ++ [id]
    match nodes.find? (fun n => n.id == id) with
    | none => acc'
    | some n => n.children.foldl (fun a c => findDescendants nodes f a c) acc'

/-- handleDeleteNode from src/src/components/MindMapEditor.tsx lines 132-155:
collect the descendant set, drop those nodes, drop every edge with an endpoint
in the set, and strip the set from the children of the remaining nodes. -/
def handleDeleteNode (st : EditorState) (nodeId : String) : EditorState :=
  let descendants := findDescendants st.nodes (st.nodes.length + 1) [] nodeId
  let updatedNodes := st.nodes.filter (fun n => !(descendants.contains n.id))
  let updatedEdges := st.edges.filter (fun e => !(descendants.contains e.fromId) && !(descendants.contains e.toId))
  let finalNodes := updatedNodes.map (fun node =>
    { node with children := node.children.filter (fun c => !(descendants.contains c)) })
  ⟨finalNodes, updatedEdges⟩

/-- The descendant set computed by handleDeleteNode, as a standalone name for
stating theorems (definitionally the same computation). -/
def deletedSet (st : EditorState) (nodeId : String) : List String :=
  findDescendants st.nodes (st.nodes.length + 1) [] nodeId

/-- A Partial MindMapNode value as passed to handleUpdateNode: each field is
either absent (none) or overrides the node field. -/
structure NodePatch where
  text : Option String
  x : Option Int
  y : Option Int
  children : Option (List String)
  collapsed : Option (Option Bool)
deriving DecidableEq

/-- The JS object spread on a node record, field-wise override. -/
def applyPatch (n : MindMapNode) (p : NodePatch) : MindMapNode :=
  { id := n.id
    text := p.text.getD n.text
    x := p.x.getD n.x
    y := p.y.getD n.y
    children := p.children.getD n.children
    collapsed := p.collapsed.getD n.collapsed }

/-- handleUpdateNode from src/src/components/MindMapEditor.tsx lines 157-161:
merge the patch into the node with the given id; every other node, and the
edge list, are untouched.  An absent id makes the map the identity. -/
def handleUpdateNode (st : EditorState) (nodeId : String) (p : NodePatch) : EditorState :=
  { st with nodes := st.nodes.map (fun node => if node.id == nodeId then applyPatch node p else node) }

/-- The while loop of checkForCircularReference
(src/src/components/MindMapEditor.tsx lines 298-315), with the JS array used
as a stack (push/pop at the end) represented head-first: popping is taking the
head, pushing the children appends them reversed.  The loop always terminates
in JS thanks to the visited set; the fuel supplied by checkForCircularReference
below exceeds the maximal possible number of iterations, so the fuel-0 case is
never reached. -/
def cfcrAux (nodes : List MindMapNode) (childId : String) (fuel : Nat) (visited stack : List String) : Bool :=
  match fuel, stack with
  | 0, _ => false
  | _, [] => false
  | f + 1, currentId :: rest =>
    if currentId == childId then true
    else if visited.contains currentId then cfcrAux nodes childId f visited rest
    else
      let visited' := visited ++ [currentId]
      match nodes.find? (fun n => n.id == currentId) with
      | none => cfcrAux nodes childId f visited' rest
      | some n => cfcrAux nodes childId f visited' (n.children.reverse ++ rest)

/-- checkForCircularReference from src/src/components/MindMapEditor.tsx lines
298-315: depth-first search over children starting from parentId, returning
true when childId is reached.  Each iteration pops one entry, and children are
pushed at most once per node (visited set), so the iteration count is bounded
by 1 + nodes.length + the total length of all children lists; that bound is
passed as fuel. -/
def checkForCircularReference (nodes : List MindMapNode) (childId parentId : String) : Bool :=
  cfcrAux nodes childId (1 + nodes.length + nodes.foldl (fun a n => a + n.children.length) 0) [] [parentId]

/-- reassignParent from src/src/components/MindMapEditor.tsx lines 356-386:
requires the new parent to exist; removes the first incoming edge of nodeId
(if any), removes nodeId from the children of that old parent, appends nodeId
to the children of the new parent, and appends the new edge. -/
def reassignParent (st : EditorState) (nodeId newParentId newEdgeId : String) : EditorState :=
  match st.nodes.find? (fun n => n.id == newParentId) with
  | none => st
  | some _ =>
    let oldEdge := st.edges.find? (fun e => e.toId == nodeId)
    let newEdge : MindMapEdge := ⟨newEdgeId, newParentId, nodeId⟩
    let newNodes := st.nodes.map (fun node =>
      if node.id == newParentId then { node with children := node.children ++ [nodeId] }
      else match oldEdge with
        | some oe => if node.id == oe.fromId then { node with children := node.children.filter (fun i => !(i == nodeId)) } else node
        | none => node)
    let filteredEdges := match oldEdge with
      | some oe => st.edges.filter (fun e => !(e.id == oe.id))
      | none => st.edges
    ⟨newNodes, filteredEdges ++ [newEdge]⟩

/-- The reparent operation as exposed by handleDragEnd together with
checkPotentialParent (src/src/components/MindMapEditor.tsx lines 164-191 and
339-353), with the pixel-distance proximity search abstracted away: the drop
designates the candidate parent newParentId.  checkPotentialParent requires
the dragged node to exist, skips the dragged node itself as a candidate, and
rejects a candidate for which checkForCircularReference returns true; an
accepted candidate is handed to reassignParent. -/
def reparent (st : EditorState) (nodeId newParentId newEdgeId : String) : EditorState :=
  match st.nodes.find? (fun n => n.id == nodeId) with
  | none => st
  | some _ =>
    if nodeId == newParentId then st
    else if checkForCircularReference st.nodes nodeId newParentId then st
    else reassignParent st nodeId newParentId newEdgeId

/-- handleEdgeDragEnd from src/src/components/MindMapEditor.tsx lines 400-437,
with the pixel-distance search for the drop target abstracted away: the drop
designates the target node targetId.  When the target exists and is neither
endpoint of the dragged edge, the toId of that edge is rewritten to the target
and nothing else changes; otherwise nothing changes. -/
def handleEdgeDragEnd (st : EditorState) (edgeId targetId : String) : EditorState :=
  match st.edges.find? (fun e => e.id == edgeId) with
  | none => st
  | some edge =>
    match st.nodes.find? (fun n => n.id == targetId) with
    | none => st
    | some targetNode =>
      if !(targetNode.id == edge.fromId) && !(targetNode.id == edge.toId) then
        { st with edges := st.edges.map (fun e => if e.id == edge.id then { edge with toId := targetNode.id } else e) }
      else st

/-- BRANCH_COLORS from src/src/lib/colors.ts lines 6-18 (the first, muted
palette; blue is reserved for selection and is not in the palette). -/
def BRANCH_COLORS : List String :=
  ["#6B7280", "#D97706", "#DC2626", "#7C3AED", "#0891B2", "#EA580C",
   "#DB2777", "#65A30D", "#4F46E5", "#0D9488", "#E11D48"]

/-- The while loop of findRootBranchId (src/src/lib/colors.ts lines 59-78):
walk incoming edges backward from the current id until a direct child of the
root is reached (some (some id)), or the walk falls off the data
(some none, the JS null), or the walk never terminates (none).  A terminating
JS run never visits the same found node twice (the step is deterministic, so a
repeat loops forever), hence performs at most nodes.length + 1 iterations;
findRootBranchId supplies exactly that fuel, so fuel exhaustion coincides with
JS nontermination. -/
def frbAux (nodes : List MindMapNode) (edges : List MindMapEdge) (root : MindMapNode)
    (fuel : Nat) (currentId : String) : Option (Option String) :=
  match fuel with
  | 0 => none
  | f + 1 =>
    if currentId == "" then some none
    else
      match nodes.find? (fun n => n.id == currentId) with
      | none => some none
      | some _ =>
        if root.children.contains currentId then some (some currentId)
        else
          match edges.find? (fun e => e.toId == currentId) with
          | none => some none
          | some parentEdge => frbAux nodes edges root f parentEdge.fromId

/-- findRootBranchId from src/src/lib/colors.ts lines 50-81: null when there is
no root; the id itself when it is a direct child of the root (this pre-check
happens before the node lookup of the loop); otherwise the backward walk.
The result is wrapped in an extra Option: none models a nonterminating JS
call, some r models a JS return of r (with the inner none for the JS null). -/
def findRootBranchId (nodes : List MindMapNode) (edges : List MindMapEdge) (nodeId : String) :
    Option (Option String) :=
  match nodes.head? with
  | none => some none
  | some rootNode =>
    if rootNode.children.contains nodeId then some (some nodeId)
    else frbAux nodes edges rootNode (nodes.length + 1) nodeId

/-- getBranchColor from src/src/lib/colors.ts lines 21-47, with its recursion
bounded by fuel.  The JS falsy guard on the walk result (if not rootBranchId,
return BRANCH_COLORS[0]) fires both on the JS null (the inner none) and on an
empty-string anchor, hence the explicit empty-string branch.  The JS indexOf
test branchIndex greater or equal to 0 is the contains test, and on success
List.indexOf computes the same first index.  A none result models a
nonterminating JS call (it can only arise from a nonterminating
findRootBranchId walk, or from the unreachable recursion on an id equal to
branchId). -/
def getBranchColorFuel (nodes : List MindMapNode) (edges : List MindMapEdge)
    (fuel : Nat) (branchId : String) : Option String :=
  match fuel with
  | 0 => none
  | f + 1 =>
    match nodes.head? with
    | none => some (BRANCH_COLORS.getD 0 "")
    | some rootNode =>
      if branchId == rootNode.id then some "#9CA3AF"
      else
        match findRootBranchId nodes edges branchId with
        | none => none
        | some none => some (BRANCH_COLORS.getD 0 "")
        | some (some rootBranchId) =>
          if rootBranchId == "" then some (BRANCH_COLORS.getD 0 "")
          else if rootBranchId == branchId && rootNode.children.contains branchId then
            some (BRANCH_COLORS.getD (min (rootNode.children.indexOf branchId) (BRANCH_COLORS.length - 1)) "")
          else
            getBranchColorFuel nodes edges f rootBranchId

/-- getBranchColor with fuel 2: both return sites of findRootBranchId yield an
id contained in the children of the root, so the single recursive call of the
source resolves without further recursion (root color, or palette lookup);
hence fuel 2 is exact, and a none result coincides with a nonterminating JS
call. -/
def getBranchColor (nodes : List MindMapNode) (edges : List MindMapEdge) (branchId : String) :
    Option String :=
  getBranchColorFuel nodes edges 2 branchId

/-- One round of expansion of a reachable-id set: every reached node
contributes its children. -/
def expandStep (nodes : List MindMapNode) (acc : List String) : List String :=
  nodes.foldl (fun a n =>
    if a.contains n.id then n.children.foldl (fun b c => if b.contains c then b else b ++ [c]) a
    else a) acc

/-- The ids reachable from the root (the first node) along children lists,
computed by iterating expandStep nodes.length + 1 times. -/
def reachableFromRoot (nodes : List MindMapNode) : List String :=
  match nodes.head? with
  | none => []
  | some root => (List.range (nodes.length + 1)).foldl (fun acc _ => expandStep nodes acc) [root.id]

/-- Formalization of the single-rooted tree invariant of the spec (sections 3
and 8): a nonempty node collection whose first element is the root; distinct
node ids and edge ids; no incoming edge at the root; exactly one incoming edge
for every other node; every edge consistent with the children list of its
source node and targeting an existing node; every children entry backed by an
edge; and every node reachable from the root along children lists (with the
in-degree constraints this is equivalent to the absence of cycles). -/
def validSingleRootedTree (st : EditorState) : Bool :=
  match st.nodes with
  | [] => false
  | root :: rest =>
    let ids := st.nodes.map (fun n => n.id)
    decide ids.Nodup &&
    decide (st.edges.map (fun e => e.id)).Nodup &&
    st.edges.all (fun e => !(e.toId == root.id)) &&
    rest.all (fun n => (st.edges.filter (fun e => e.toId == n.id)).length == 1) &&
    st.edges.all (fun e =>
      match st.nodes.find? (fun n => n.id == e.fromId) with
      | some p => p.children.contains e.toId
      | none => false) &&
    st.edges.all (fun e => ids.contains e.toId) &&
    st.nodes.all (fun n => n.children.all (fun c => st.edges.any (fun e => e.fromId == n.id && e.toId == c))) &&
    st.nodes.all (fun n => (reachableFromRoot st.nodes).contains n.id)

/-- The root node used by the concrete scenarios below (the editor creates the
map with one root node and no edges). -/
def rNode : MindMapNode := ⟨"r", "Start Here", 400, 300, [], none⟩

/-- A fresh single-root map. -/
def st0 : EditorState := ⟨[rNode], []⟩

/-- st0 after createChild at the root: R -> A. -/
def st1 : EditorState := handleCreateChild st0 "r" "a" "e1"

/-- st1 after createChild at A: R -> A -> C. -/
def st2 : EditorState := handleCreateChild st1 "a" "c" "e2"

/-- st2 after dropping node A onto node C: the circular-reference check does
not fire and reassignParent runs. -/
def st3 : EditorState := reparent st2 "a" "c" "e3"

/-- MindMap interface from the storage module: id, name, the node and edge
collections, and the two timestamps.  The store behind localStorage holds a
JSON string: getAllMaps parses it afresh on every call and saveMap
re-stringifies, so every value that crosses the storage boundary is a deep
copy and no array reference survives a round trip; the store is therefore
modelled as a value (a list of maps with their collections), which is exact
for everything observable through the storage interface. -/
structure MindMap where
  id : String
  name : String
  nodes : List MindMapNode
  edges : List MindMapEdge
  createdAt : Int
  updatedAt : Int
deriving DecidableEq

/-- storage.getMap: parse the store and find the map with the given id (null
when absent); the JSON.parse in getAllMaps makes the returned map a deep copy
of the stored record. -/
def getMap (store : List MindMap) (id : String) : Option MindMap :=
  store.find? (fun m => m.id == id)

/-- storage.saveMap: replace the entry with the same id (refreshing
updatedAt), or append the map (stamping createdAt and updatedAt), then
stringify the store back.  Date.now() is passed as the parameter now. -/
def saveMap (store : List MindMap) (m : MindMap) (now : Int) : List MindMap :=
  match store.findIdx? (fun x => x.id == m.id) with
  | some i => store.set i { m with updatedAt := now }
  | none => store ++ [{ m with createdAt := now, updatedAt := now }]

/-- storage.duplicateMap from the storage module (lines 299-313 of the
concatenated source): looks up the original (a fresh parse); on success
builds the duplicate by object spread - overriding id, name and the
timestamps, keeping the collections - saves it (which deep-copies it into the
stored JSON string) and returns it.  The spread shares its arrays only with
the transient parse of this call, which no later access can reach, so in the
value model the duplicate simply carries the same collection values.
generateId is modelled by the freshId parameter. -/
def duplicateMap (store : List MindMap) (id freshId : String) (now : Int) :
    Option MindMap × List MindMap :=
  match getMap store id with
  | none => (none, store)
  | some original =>
    let duplicated : MindMap :=
      { original with id := freshId, name := original.name ++ " (Copy)", createdAt := now, updatedAt := now }
    (some duplicated, saveMap store duplicated now)

/-- A stored map for the duplication scenario. -/
def origMap : MindMap := ⟨"m0", "My Map", [⟨"r", "Root", 0, 0, [], none⟩], [], 1, 1⟩

/-- A store holding just origMap. -/
def store0 : List MindMap := [origMap]

/-- Nodes and edges of the cyclic-ancestry scenario for the colorizer: nodes a
and b point at each other through children and edges, and neither is a direct
child of the root. -/
def cycNodes : List MindMapNode :=
  [⟨"r", "Root", 0, 0, [], none⟩, ⟨"a", "A", 0, 0, ["b"], none⟩, ⟨"b", "B", 0, 0, ["a"], none⟩]

/-- Edges of the cyclic-ancestry scenario. -/
def cycEdges : List MindMapEdge := [⟨"e1", "a", "b"⟩, ⟨"e2", "b", "a"⟩]

/-- Claim C1: the claim asserts that every sequence of
createChild/createSibling/deleteSubtree/reparent operations starting from a
valid single-rooted tree yields a valid single-rooted tree.  The code violates
this: starting from the fresh map st0 (valid), two createChild steps produce
the chain R -> A -> C (each step valid), and then dropping A onto its own
descendant C passes the circular-reference check of handleDragEnd (the check
searches downward from the candidate parent C and never sees A), so
reassignParent produces the edge set with A -> C and C -> A, a two-cycle
detached from the root, and the invariant is lost. -/
theorem invariant_broken_by_reparent :
    validSingleRootedTree st0 = true ∧ validSingleRootedTree st1 = true ∧
    validSingleRootedTree st2 = true ∧ validSingleRootedTree st3 = false := by decide

/-- Claim C2: the claim asserts that reparent(a, b) is a no-op exactly when b
equals a or b is a descendant of a, and otherwise succeeds.  The code has the
rejection condition inverted.  On the chain R -> A -> C (state st2):
reparent(A, C) has b = C a proper descendant of a = A, so the claim demands a
no-op, but the code changes the state and produces the cyclic edge pair
A -> C and C -> A; and reparent(C, R) has b = R not a descendant of a = C, so
the claim demands success, but the code rejects it (its downward search from R
reaches C) and leaves the state unchanged. -/
theorem reparent_cycle_check_inverted :
    st3 ≠ st2 ∧ (⟨"e2", "a", "c"⟩ : MindMapEdge) ∈ st3.edges ∧
    (⟨"e3", "c", "a"⟩ : MindMapEdge) ∈ st3.edges ∧ reparent st2 "c" "r" "e4" = st2 := by decide

/-- Every element of the accumulator stays in the result of a foldl whose step
function preserves membership. -/
theorem foldl_mem_of_mem {g : List String → String → List String}
    (hg : ∀ acc c, ∀ x ∈ acc, x ∈ g acc c) :
    ∀ (l : List String) (acc : List String), ∀ x ∈ acc, x ∈ l.foldl g acc := by
  intro l
  induction l with
  | nil => intro acc x hx; simpa using hx
  | cons c cs ih => intro acc x hx; exact ih (g acc c) x (hg acc c x hx)

/-- findDescendants only ever adds ids: the accumulator is preserved. -/
theorem findDescendants_superset (nodes : List MindMapNode) :
    ∀ (fuel : Nat) (acc : List String) (id : String), ∀ x ∈ acc, x ∈ findDescendants nodes fuel acc id := by
  intro fuel
  induction fuel with
  | zero => intro acc id x hx; exact hx
  | succ f ih =>
    intro acc id x hx
    have hacc' : x ∈ (if acc.contains id then acc else acc ++ [id]) := by
      split <;> simp [hx]
    simp only [findDescendants]
    cases hfind : nodes.find? (fun n => n.id == id) with
    | none => simpa [hfind] using hacc'
    | some nn =>
      simp only [hfind]
      exact foldl_mem_of_mem (fun acc c => ih acc c) nn.children _ x hacc'

/-- The deleted id itself always belongs to the descendant set that
handleDeleteNode computes. -/
theorem mem_deletedSet_self (st : EditorState) (x : String) : x ∈ deletedSet st x := by
  unfold deletedSet
  have hx : x ∈ (if ([] : List String).contains x then ([] : List String) else [] ++ [x]) := by simp
  simp only [findDescendants]
  cases hfind : st.nodes.find? (fun n => n.id == x) with
  | none => simp only [hfind]; exact hx
  | some nn =>
    simp only [hfind]
    exact foldl_mem_of_mem (fun acc c => findDescendants_superset st.nodes st.nodes.length acc c)
      nn.children _ x hx

/-- Mapping a function that fixes every element of a list is the identity. -/
theorem list_map_eq_self {α : Type} (l : List α) (f : α → α) (h : ∀ a ∈ l, f a = a) : l.map f = l := by
  induction l with
  | nil => rfl
  | cons a t ih =>
    simp only [List.map_cons, h a (by simp)]
    rw [ih (fun b hb => h b (by simp [hb]))]

/-- Claim C3: on a valid tree containing x, handleDeleteNode removes exactly
the ids in the descendant set computed by the depth-first traversal from x
over children (deletedSet): the deleted set contains x; no surviving node has
an id in the set; every node outside the set survives with its id and text,
its children stripped of the set; no surviving edge has an endpoint in the
set; every edge with both endpoints outside the set survives; and no
surviving children entry is in the set. -/
theorem handleDeleteNode_removes_descendant_closure
    (st : EditorState) (x : String)
    (hv : validSingleRootedTree st = true)
    (hx : x ∈ st.nodes.map (fun n => n.id)) :
    x ∈ deletedSet st x ∧
    (∀ n ∈ (handleDeleteNode st x).nodes, n.id ∉ deletedSet st x) ∧
    (∀ n ∈ st.nodes, n.id ∉ deletedSet st x →
      ∃ n' ∈ (handleDeleteNode st x).nodes, n'.id = n.id ∧ n'.text = n.text ∧
        n'.children = n.children.filter (fun c => !((deletedSet st x).contains c))) ∧
    (∀ e ∈ (handleDeleteNode st x).edges, e.fromId ∉ deletedSet st x ∧ e.toId ∉ deletedSet st x) ∧
    (∀ e ∈ st.edges, e.fromId ∉ deletedSet st x → e.toId ∉ deletedSet st x →
      e ∈ (handleDeleteNode st x).edges) ∧
    (∀ n ∈ (handleDeleteNode st x).nodes, ∀ c ∈ n.children, c ∉ deletedSet st x) := by
  refine ⟨mem_deletedSet_self st x, ?_, ?_, ?_, ?_, ?_⟩
  · intro n hn
    simp only [handleDeleteNode, List.mem_map, List.mem_filter] at hn
    obtain ⟨m, ⟨hm, hmq⟩, rfl⟩ := hn
    simpa [deletedSet, List.elem_iff] using hmq
  · intro n hn hnD
    refine ⟨{ n with children := n.children.filter (fun c => !((deletedSet st x).contains c)) }, ?_, rfl, rfl, rfl⟩
    simp only [handleDeleteNode, List.mem_map, List.mem_filter]
    exact ⟨n, ⟨hn, by simpa [deletedSet, List.elem_iff] using hnD⟩, rfl⟩
  · intro e he
    simp only [handleDeleteNode, List.mem_filter, Bool.and_eq_true] at he
    obtain ⟨_, hq1, hq2⟩ := he
    constructor
    · simpa [deletedSet, List.elem_iff] using hq1
    · simpa [deletedSet, List.elem_iff] using hq2
  · intro e he he1 he2
    simp only [handleDeleteNode, List.mem_filter, Bool.and_eq_true]
    exact ⟨he, by simpa [deletedSet, List.elem_iff] using he1,
      by simpa [deletedSet, List.elem_iff] using he2⟩
  · intro n hn c hc
    simp only [handleDeleteNode, List.mem_map, List.mem_filter] at hn
    obtain ⟨m, ⟨hm, hmq⟩, rfl⟩ := hn
    simp only [List.mem_filter] at hc
    simpa [deletedSet, List.elem_iff] using hc.2

/-- Witness for C3 at the concrete valid tree st1, deleting the leaf a. -/
theorem handleDeleteNode_removes_descendant_closure_witness :
    validSingleRootedTree st1 = true ∧ "a" ∈ st1.nodes.map (fun n => n.id) ∧
    ∀ n ∈ (handleDeleteNode st1 "a").nodes, n.id ∉ deletedSet st1 "a" :=
  ⟨by decide, by decide,
    (handleDeleteNode_removes_descendant_closure st1 "a" (by decide) (by decide)).2.1⟩

/-- Claim C4 counterexample: in the authoritative MindMapEditor.tsx handler,
createSibling invoked with the root id is a silent no-op (the root has no
incoming edge, so the parent-edge lookup fails), both on a bare root map (st0)
and on a root with descendants (st2) - it does not behave as createChild on
the root. -/
theorem handleCreateSibling_root_is_noop :
    handleCreateSibling st2 "r" "s1" "e9" = st2 ∧
    handleCreateSibling st0 "r" "s1" "e9" = st0 := by decide

/-- Claim C4 (amended): in the part_001 variant, createSibling on the root id
creates exactly one new node as a child of the root: the root (still the
first node) gets the new id appended to its children, the new node (with
empty children, positioned left of the root) is appended to the node
collection, whose length grows by one, and exactly one new edge
root -> new node is appended. -/
theorem createSiblingV2_root_creates_child
    (st : EditorState) (root : MindMapNode) (rest : List MindMapNode) (sib eid : String)
    (hn : st.nodes = root :: rest) :
    ((handleCreateSiblingV2 st root.id sib eid).nodes.head? =
      some { root with children := root.children ++ [sib] }) ∧
    ((handleCreateSiblingV2 st root.id sib eid).nodes.getLast? =
      some ⟨sib, "New Node", root.x - 250, root.y + 100, [], none⟩) ∧
    ((handleCreateSiblingV2 st root.id sib eid).nodes.length = st.nodes.length + 1) ∧
    ((handleCreateSiblingV2 st root.id sib eid).edges = st.edges ++ [⟨eid, root.id, sib⟩]) := by
  obtain ⟨ns, es⟩ := st
  simp only at hn
  subst hn
  have hfind : (root :: rest).find? (fun n => n.id == root.id) = some root :=
    List.find?_cons_of_pos _ (by simp)
  simp only [handleCreateSiblingV2, hfind, List.head?_cons, beq_self_eq_true, if_true,
    List.map_cons, List.cons_append]
  refine ⟨trivial, ?_, ?_, trivial⟩
  · rw [← List.cons_append, List.getLast?_concat]
  · simp

/-- Witness for the amended C4 at the concrete state st2. -/
theorem createSiblingV2_root_creates_child_witness :
    ((handleCreateSiblingV2 st2 "r" "s1" "e9").nodes.head? =
      some ⟨"r", "Start Here", 400, 300, ["a", "s1"], none⟩) ∧
    ((handleCreateSiblingV2 st2 "r" "s1" "e9").nodes.getLast? =
      some ⟨"s1", "New Node", 150, 400, [], none⟩) ∧
    ((handleCreateSiblingV2 st2 "r" "s1" "e9").nodes.length = st2.nodes.length + 1) ∧
    ((handleCreateSiblingV2 st2 "r" "s1" "e9").edges = st2.edges ++ [⟨"e9", "r", "s1"⟩]) :=
  createSiblingV2_root_creates_child st2 ⟨"r", "Start Here", 400, 300, ["a"], none⟩
    [⟨"a", "New Node", 600, 400, ["c"], none⟩, ⟨"c", "New Node", 800, 500, [], none⟩]
    "s1" "e9" (by decide)

/-- A structurally valid tree that carries a node with the empty string as id,
sitting at index 1 of the children of the root. -/
def emptyIdNodes : List MindMapNode :=
  [⟨"r", "Root", 0, 0, ["a", ""], none⟩, ⟨"a", "A", 0, 0, [], none⟩, ⟨"", "Empty", 0, 0, [], none⟩]

/-- Edges of the empty-string-id tree. -/
def emptyIdEdges : List MindMapEdge := [⟨"e1", "r", "a"⟩, ⟨"e2", "r", ""⟩]

/-- Claim C5 counterexample: on the valid tree emptyIdNodes/emptyIdEdges, the
ancestor walk for the non-root node with the empty id reaches that id itself
as the branch anchor at index 1 of the root children list, so the claim
demands palette entry min 1 (palette length - 1) = 1; but the source guard
(if not rootBranchId, return BRANCH_COLORS[0]) treats the empty string as
falsy, and getBranchColor returns palette entry 0 instead. -/
theorem getBranchColor_empty_anchor_falls_back :
    validSingleRootedTree ⟨emptyIdNodes, emptyIdEdges⟩ = true ∧
    findRootBranchId emptyIdNodes emptyIdEdges "" = some (some "") ∧
    (["a", ""] : List String).indexOf "" = 1 ∧
    getBranchColor emptyIdNodes emptyIdEdges "" = some (BRANCH_COLORS.getD 0 "") ∧
    getBranchColor emptyIdNodes emptyIdEdges "" ≠
      some (BRANCH_COLORS.getD (min 1 (BRANCH_COLORS.length - 1)) "") := by decide

/-- Helper for the inner recursive call of getBranchColor on a
branch anchor: one unit of fuel resolves an id that is a direct child of the
root (and not the root itself) to its clamped palette entry. -/
theorem getBranchColorFuel_one_anchor
    (nodes : List MindMapNode) (edges : List MindMapEdge) (root : MindMapNode)
    (rest : List MindMapNode) (a : String)
    (hn : nodes = root :: rest) (ha : a ≠ "") (har : a ≠ root.id) (hmem : a ∈ root.children) :
    getBranchColorFuel nodes edges 1 a =
      some (BRANCH_COLORS.getD (min (root.children.indexOf a) (BRANCH_COLORS.length - 1)) "") := by
  subst hn
  have hbe : (a == "") = false := by simp [ha]
  have hbeq : (a == root.id) = false := by simp [har]
  have hc : root.children.contains a = true := by simpa [List.elem_iff] using hmem
  simp only [getBranchColorFuel, findRootBranchId, List.head?_cons, hbe, hbeq, hc,
    Bool.false_eq_true, if_false, if_true, beq_self_eq_true, Bool.and_self, and_self]

/-- Claim C5 (amended): for a node n other than the root whose backward
ancestor walk (findRootBranchId) reaches a NON-EMPTY branch anchor a sitting
at index i of the children list of the root, getBranchColor returns the
palette entry at min i (palette length - 1); moreover the palette entries are
pairwise distinct, so anchors at distinct indices below the palette size
receive distinct colors, and every node resolving to the same anchor receives
the same color.  (An empty-string anchor instead hits the JS falsy guard and
yields palette entry 0, see the counterexample.) -/
theorem getBranchColor_assigns_anchor_color
    (nodes : List MindMapNode) (edges : List MindMapEdge) (root : MindMapNode)
    (rest : List MindMapNode) (n a : String) (i : Nat)
    (hn : nodes = root :: rest) (hnr : n ≠ root.id) (ha : a ≠ "") (har : a ≠ root.id)
    (hf : findRootBranchId nodes edges n = some (some a))
    (hmem : a ∈ root.children) (hidx : root.children.indexOf a = i) :
    getBranchColor nodes edges n =
      some (BRANCH_COLORS.getD (min i (BRANCH_COLORS.length - 1)) "") ∧
    BRANCH_COLORS.Pairwise (fun c1 c2 => c1 ≠ c2) := by
  subst hn hidx
  refine ⟨?_, by decide⟩
  have hbe : (a == "") = false := by simp [ha]
  have hbeq : (n == root.id) = false := by simp [hnr]
  by_cases hcase : a = n
  · subst hcase
    have hc : root.children.contains a = true := by simpa [List.elem_iff] using hmem
    simp only [getBranchColor, getBranchColorFuel, List.head?_cons, hbeq, hf, hbe, hc,
      Bool.false_eq_true, if_false, beq_self_eq_true, Bool.and_self, if_true]
  · have hab : (a == n) = false := by simp [hcase]
    have h1 := getBranchColorFuel_one_anchor (root :: rest) edges root rest a rfl ha har hmem
    simp only [getBranchColor, getBranchColorFuel, List.head?_cons, hbeq, hf, hbe, hab,
      Bool.false_eq_true, if_false, Bool.false_and] at h1 ⊢
    exact h1

/-- Witness for C5 on the chain R -> A -> C (state st2): the deep node c
resolves to the anchor a at index 0 and receives palette entry 0. -/
theorem getBranchColor_assigns_anchor_color_witness :
    getBranchColor st2.nodes st2.edges "c" =
      some (BRANCH_COLORS.getD (min 0 (BRANCH_COLORS.length - 1)) "") ∧
    BRANCH_COLORS.Pairwise (fun c1 c2 => c1 ≠ c2) :=
  getBranchColor_assigns_anchor_color st2.nodes st2.edges
    ⟨"r", "Start Here", 400, 300, ["a"], none⟩
    [⟨"a", "New Node", 600, 400, ["c"], none⟩, ⟨"c", "New Node", 800, 500, [], none⟩]
    "c" "a" 0 (by decide) (by decide) (by decide) (by decide) (by decide) (by decide) (by decide)

/-- Claim C7 counterexample: on malformed data whose ancestry chain is cyclic
(node b with parent a, node a with parent b, neither a child of the root), no
branch anchor is reachable from b, yet getBranchColor does not return the
fallback palette entry 0: the backward walk of findRootBranchId never
terminates (modelled by the fuel-exhaustion result none), so the JS call
diverges instead of returning a color. -/
theorem getBranchColor_diverges_on_cyclic_ancestry :
    getBranchColor cycNodes cycEdges "b" = none ∧
    getBranchColor cycNodes cycEdges "b" ≠ some (BRANCH_COLORS.getD 0 "") := by decide

/-- Claim C7 (amended): for a nonempty node collection, getBranchColor on the
id of the first node returns the reserved neutral root color, which is not a
palette entry; and for a node n other than the root whose backward walk
terminates without reaching a direct child of the root (findRootBranchId
returns the JS null), getBranchColor returns the deterministic fallback
palette entry 0.  (When the walk cycles it does not terminate, see the
counterexample.) -/
theorem getBranchColor_root_and_fallback
    (nodes : List MindMapNode) (edges : List MindMapEdge) (root : MindMapNode)
    (rest : List MindMapNode) (n : String)
    (hn : nodes = root :: rest) (hnr : n ≠ root.id)
    (hw : findRootBranchId nodes edges n = some none) :
    getBranchColor nodes edges root.id = some "#9CA3AF" ∧
    "#9CA3AF" ∉ BRANCH_COLORS ∧
    getBranchColor nodes edges n = some (BRANCH_COLORS.getD 0 "") := by
  subst hn
  refine ⟨?_, by decide, ?_⟩
  · simp [getBranchColor, getBranchColorFuel]
  · simp only [getBranchColor, getBranchColorFuel, List.head?_cons]
    rw [if_neg (by simp [hnr])]
    rw [hw]

/-- Witness for the amended C7 at the bare root map st0 and the absent id zz
(the walk stops at the missing node and returns null). -/
theorem getBranchColor_root_and_fallback_witness :
    getBranchColor st0.nodes st0.edges "r" = some "#9CA3AF" ∧
    "#9CA3AF" ∉ BRANCH_COLORS ∧
    getBranchColor st0.nodes st0.edges "zz" = some (BRANCH_COLORS.getD 0 "") :=
  getBranchColor_root_and_fallback st0.nodes st0.edges rNode [] "zz" (by decide) (by decide)
    (by decide)

/-- Claim C8: getBranchColor is modelled as a pure function of the node
collection, the edge collection and the queried id, faithfully so because the
source function only reads the collections (find?, includes, indexOf) and
never writes; determinism across calls with structurally identical arguments
is then definitional. -/
theorem getBranchColor_deterministic
    (nodes1 nodes2 : List MindMapNode) (edges1 edges2 : List MindMapEdge) (id1 id2 : String)
    (hn : nodes1 = nodes2) (he : edges1 = edges2) (hi : id1 = id2) :
    getBranchColor nodes1 edges1 id1 = getBranchColor nodes2 edges2 id2 := by
  subst hn; subst he; subst hi; rfl

/-- Witness for C8 at the concrete state st2. -/
theorem getBranchColor_deterministic_witness :
    getBranchColor st2.nodes st2.edges "c" = getBranchColor st2.nodes st2.edges "c" :=
  getBranchColor_deterministic st2.nodes st2.nodes st2.edges st2.edges "c" "c" rfl rfl rfl

/-- Claim C6: every Tree Store operation given an id absent from the node
collection is a silent no-op (the handlers are total functions, so no
exception is possible in the model): handleCreateChild and handleUpdateNode
return the state unchanged on any state, and handleDeleteNode returns the
state unchanged on any valid tree (validity guarantees that the absent id
occurs in no edge endpoint and no children list, so the delete filters keep
everything); in particular deleting an absent id is idempotent. -/
theorem absent_id_operations_are_noops
    (st : EditorState) (x cid eid : String) (p : NodePatch)
    (hx : ∀ n ∈ st.nodes, n.id ≠ x) :
    handleCreateChild st x cid eid = st ∧
    handleUpdateNode st x p = st ∧
    (validSingleRootedTree st = true → handleDeleteNode st x = st) := by
  have hfind : st.nodes.find? (fun n => n.id == x) = none :=
    List.find?_eq_none.mpr (fun n hn => by simp [hx n hn])
  refine ⟨?_, ?_, ?_⟩
  · simp [handleCreateChild, hfind]
  · have hm : st.nodes.map (fun node => if node.id == x then applyPatch node p else node) = st.nodes :=
      list_map_eq_self _ _ (fun n hn => by simp [hx n hn])
    obtain ⟨ns, es⟩ := st
    simp only at hm
    simp only [handleUpdateNode, hm]
  · intro hv
    have hD : findDescendants st.nodes (st.nodes.length + 1) [] x = [x] := by
      simp [findDescendants, hfind]
    obtain ⟨ns, es⟩ := st
    cases ns with
    | nil => simp [validSingleRootedTree] at hv
    | cons root rest =>
      simp only [validSingleRootedTree, Bool.and_eq_true, List.all_eq_true, decide_eq_true_eq] at hv
      obtain ⟨⟨⟨⟨⟨⟨⟨h1, h2⟩, h3⟩, h4⟩, h5⟩, h6⟩, h7⟩, h8⟩ := hv
      simp only at hx hfind hD
      have hto : ∀ e ∈ es, e.toId ≠ x := by
        intro e he
        obtain ⟨n, hn, hid⟩ := List.mem_map.mp (List.elem_iff.mp (h6 e he))
        exact hid ▸ hx n hn
      have hfrom : ∀ e ∈ es, e.fromId ≠ x := by
        intro e he
        have h5e := h5 e he
        revert h5e
        cases hq : (root :: rest).find? (fun n => n.id == e.fromId) with
        | none => simp
        | some q =>
          intro _
          have hqid : q.id = e.fromId := by simpa using List.find?_some hq
          exact hqid ▸ hx q (List.mem_of_find?_eq_some hq)
      have hchild : ∀ n ∈ root :: rest, ∀ c ∈ n.children, c ≠ x := by
        intro n hn c hc
        obtain ⟨e, he, hee⟩ := List.any_eq_true.mp (h7 n hn c hc)
        have h2e : e.toId = c := by
          have := (Bool.and_eq_true _ _).mp hee
          simpa using this.2
        exact h2e ▸ hto e he
      have hnf : (root :: rest).filter (fun n => !([x].contains n.id)) = root :: rest :=
        List.filter_eq_self.mpr (fun n hn => by simp [hx n hn])
      have hef : es.filter (fun e => !([x].contains e.fromId) && !([x].contains e.toId)) = es :=
        List.filter_eq_self.mpr (fun e he => by simp [hfrom e he, hto e he])
      have hmap : (root :: rest).map
          (fun node => { node with children := node.children.filter (fun c => !([x].contains c)) }) =
          root :: rest :=
        list_map_eq_self _ _ (fun n hn => by
          rw [List.filter_eq_self.mpr (fun c hc => by simp [hchild n hn c hc])])
      simp only [handleDeleteNode, hD, hnf, hef, hmap]

/-- Witness for C6 at the bare root map st0 with the absent id zz. -/
theorem absent_id_operations_are_noops_witness :
    handleCreateChild st0 "zz" "n1" "e9" = st0 ∧
    handleUpdateNode st0 "zz" ⟨none, none, none, none, none⟩ = st0 ∧
    handleDeleteNode st0 "zz" = st0 :=
  have h := absent_id_operations_are_noops st0 "zz" "n1" "e9" ⟨none, none, none, none, none⟩
    (by decide)
  ⟨h.1, h.2.1, h.2.2 (by decide)⟩

/-- A valid three-node tree (root with direct children a and b) used to show
that an edge drag can break the children/edge consistency. -/
def st10 : EditorState :=
  ⟨[⟨"r", "Root", 0, 0, ["a", "b"], none⟩, ⟨"a", "A", 0, 0, [], none⟩, ⟨"b", "B", 0, 0, [], none⟩],
   [⟨"e1", "r", "a"⟩, ⟨"e2", "r", "b"⟩]⟩

/-- Claim C10: handleEdgeDragEnd leaves the node collection (children lists
included) unchanged in every case, and the edge list positionally unchanged
except that the dragged edge (identified by its unique id) gets its toId
rewritten to the target.  It performs no cycle check and does not restore
consistency: concretely, on the valid tree st10 dragging edge e1 onto b
produces an invalid state (the children entry a of the root loses its edge and
b gains two incoming edges), and on the chain st2 dragging edge e2 onto the
root r produces the cyclic edge pair r -> a, a -> r. -/
theorem handleEdgeDragEnd_frame
    (st : EditorState) (edgeId targetId : String)
    (hids : (st.edges.map (fun e => e.id)).Nodup) :
    (handleEdgeDragEnd st edgeId targetId).nodes = st.nodes ∧
    List.Forall₂ (fun e e' => e' = e ∨ (e.id = edgeId ∧ e' = { e with toId := targetId }))
      st.edges (handleEdgeDragEnd st edgeId targetId).edges ∧
    (validSingleRootedTree st10 = true ∧
      validSingleRootedTree (handleEdgeDragEnd st10 "e1" "b") = false) ∧
    (handleEdgeDragEnd st2 "e2" "r").edges = [⟨"e1", "r", "a"⟩, ⟨"e2", "a", "r"⟩] := by
  refine ⟨?_, ?_, by decide, by decide⟩
  · unfold handleEdgeDragEnd
    split
    · rfl
    · split
      · rfl
      · split
        · rfl
        · rfl
  · have hsame : List.Forall₂
        (fun e e' => e' = e ∨ (e.id = edgeId ∧ e' = { e with toId := targetId })) st.edges st.edges :=
      List.forall₂_same.mpr (fun e _ => Or.inl rfl)
    unfold handleEdgeDragEnd
    split
    · exact hsame
    next edge hfe =>
      split
      · exact hsame
      next t hft =>
        split
        · show List.Forall₂ _ st.edges (st.edges.map _)
          refine List.forall₂_map_right_iff.mpr (List.forall₂_same.mpr ?_)
          intro e he
          by_cases hc : (e.id == edge.id) = true
          · right
            have hedgeid : edge.id = edgeId := by simpa using List.find?_some hfe
            have heid : e.id = edge.id := by simpa using hc
            have htid : t.id = targetId := by simpa using List.find?_some hft
            have heq : e = edge :=
              List.inj_on_of_nodup_map hids he (List.mem_of_find?_eq_some hfe) heid
            subst heq
            refine ⟨heid.trans hedgeid, ?_⟩
            simp [hc, htid]
          · left
            simp [hc]
        · exact hsame

/-- Witness for C10 at the concrete state st10. -/
theorem handleEdgeDragEnd_frame_witness :
    (handleEdgeDragEnd st10 "e1" "b").nodes = st10.nodes ∧
    List.Forall₂ (fun e e' => e' = e ∨ (e.id = "e1" ∧ e' = { e with toId := "b" }))
      st10.edges (handleEdgeDragEnd st10 "e1" "b").edges :=
  have h := handleEdgeDragEnd_frame st10 "e1" "b" (by decide)
  ⟨h.1, h.2.1⟩

/-- The duplicate that storage.duplicateMap builds from a freshly parsed
original by object spread: id, name and timestamps overridden, the node and
edge collections kept (value-equal to the originals; the spread shares the
arrays only with the transient parse of the same call, so nothing mutable is
shared across the storage boundary). -/
def duplicatedOf (original : MindMap) (freshId : String) (now : Int) : MindMap :=
  { original with id := freshId, name := original.name ++ " (Copy)", createdAt := now, updatedAt := now }

/-- findIdx? misses every element a predicate rejects. -/
theorem list_findIdx_eq_none {α : Type} (l : List α) (p : α → Bool)
    (h : ∀ a ∈ l, p a = false) : l.findIdx? p = none := by
  induction l with
  | nil => rfl
  | cons a t ih =>
    rw [List.findIdx?_cons]
    simp only [h a (by simp)]
    simp [ih (fun b hb => h b (by simp [hb]))]

/-- Replacing an element the predicate rejects by another rejected element
leaves find? unchanged. -/
theorem list_find_set_of_neg {α : Type} (p : α → Bool) :
    ∀ (l : List α) (i : Nat) (y : α), p y = false → (∀ x, l[i]? = some x → p x = false) →
      (l.set i y).find? p = l.find? p := by
  intro l
  induction l with
  | nil => intro i y _ _; rfl
  | cons a t ih =>
    intro i y hy hx
    cases i with
    | zero =>
      have ha : p a = false := hx a (by simp)
      simp [List.set_cons_zero, List.find?_cons, ha, hy]
    | succ j =>
      simp only [List.set_cons_succ, List.find?_cons]
      cases hpa : p a
      · exact ih j y hy (fun x hx2 => hx x (by simpa using hx2))
      · rfl

/-- Writing a map through saveMap never changes what getMap returns for a
DIFFERENT id: the replaced or appended entry carries the written id. -/
theorem getMap_saveMap_ne (s : List MindMap) (m : MindMap) (now : Int) (id : String)
    (hne : m.id ≠ id) : getMap (saveMap s m now) id = getMap s id := by
  unfold saveMap getMap
  cases hidx : s.findIdx? (fun x => x.id == m.id) with
  | some i =>
    simp only
    apply list_find_set_of_neg
    · simp [hne]
    · intro x hx
      obtain ⟨hlt, hpx, -⟩ := List.findIdx?_eq_some_iff_getElem.mp hidx
      have hxi : x = s[i] := by
        rw [List.getElem?_eq_getElem hlt] at hx
        exact (Option.some.injEq _ _ ▸ hx).symm
      subst hxi
      have hxm : s[i].id = m.id := by simpa using hpx
      simp [hxm, hne]
  | none =>
    simp only
    rw [List.find?_append]
    have hlast : List.find? (fun x => x.id == id)
        [{ m with createdAt := now, updatedAt := now }] = none := by
      simp [List.find?_cons, hne]
    rw [hlast]
    cases s.find? (fun x => x.id == id) <;> rfl

/-- Claim C9: for a present id, duplicateMap returns a new map with the fresh
id, the name with the " (Copy)" suffix and fresh timestamps, whose node and
edge collections are structurally equal to the originals; all sharing with the
original is confined to a transient parse of the same call, because the store
lives behind a JSON stringify/parse boundary (every read deep-copies), so
mutating the returned duplicate can never change the stored original: the
stored original still reads back unchanged right after the duplication, and
saving ANY mutated version of the duplicate (any map carrying the fresh id)
still leaves the original reading back unchanged.  For an absent id the call
returns the JS null and leaves the store unchanged. -/
theorem duplicateMap_deep_copies
    (store : List MindMap) (id freshId : String) (now now2 : Int) :
    (∀ original, getMap store id = some original →
      (duplicateMap store id freshId now).1 = some (duplicatedOf original freshId now) ∧
      ((duplicateMap store id freshId now).1.map (fun d => d.nodes) = some original.nodes ∧
       (duplicateMap store id freshId now).1.map (fun d => d.edges) = some original.edges ∧
       (duplicateMap store id freshId now).1.map (fun d => d.id) = some freshId ∧
       (duplicateMap store id freshId now).1.map (fun d => d.name) =
         some (original.name ++ " (Copy)")) ∧
      ((∀ m ∈ store, m.id ≠ freshId) →
        (duplicateMap store id freshId now).2 = store ++ [duplicatedOf original freshId now] ∧
        getMap (duplicateMap store id freshId now).2 id = some original ∧
        (∀ d' : MindMap, d'.id = freshId →
          getMap (saveMap (duplicateMap store id freshId now).2 d' now2) id = some original))) ∧
    (getMap store id = none → duplicateMap store id freshId now = (none, store)) := by
  constructor
  · intro original ho
    have hoid : original.id = id := by simpa using List.find?_some ho
    refine ⟨by simp [duplicateMap, duplicatedOf, ho],
      ⟨by simp [duplicateMap, ho], by simp [duplicateMap, ho], by simp [duplicateMap, ho],
        by simp [duplicateMap, ho]⟩, ?_⟩
    intro hfresh
    have hidne : id ≠ freshId := by
      have := hfresh original (List.mem_of_find?_eq_some ho)
      exact fun h => this (hoid.trans h)
    have hidx : store.findIdx? (fun x => x.id == freshId) = none :=
      list_findIdx_eq_none _ _ (fun m hm => by simp [hfresh m hm])
    have happ : (duplicateMap store id freshId now).2 =
        store ++ [duplicatedOf original freshId now] := by
      simp [duplicateMap, duplicatedOf, ho, saveMap, hidx]
    have hget : getMap (duplicateMap store id freshId now).2 id = some original := by
      rw [happ]
      unfold getMap
      rw [List.find?_append]
      unfold getMap at ho
      rw [ho]
      rfl
    refine ⟨happ, hget, ?_⟩
    intro d' hd'
    rw [getMap_saveMap_ne _ _ _ _ (by rw [hd']; exact fun h => hidne h.symm)]
    exact hget
  · intro ho
    simp [duplicateMap, ho]

/-- Witness for C9 at the concrete store store0. -/
theorem duplicateMap_deep_copies_witness :
    (duplicateMap store0 "m0" "m1" 5).1 = some (duplicatedOf origMap "m1" 5) ∧
    ((duplicateMap store0 "m0" "m1" 5).1.map (fun d => d.nodes) = some origMap.nodes ∧
     (duplicateMap store0 "m0" "m1" 5).1.map (fun d => d.edges) = some origMap.edges ∧
     (duplicateMap store0 "m0" "m1" 5).1.map (fun d => d.id) = some "m1" ∧
     (duplicateMap store0 "m0" "m1" 5).1.map (fun d => d.name) = some ("My Map" ++ " (Copy)")) ∧
    (duplicateMap store0 "m0" "m1" 5).2 = store0 ++ [duplicatedOf origMap "m1" 5] ∧
    getMap (duplicateMap store0 "m0" "m1" 5).2 "m0" = some origMap ∧
    getMap (saveMap (duplicateMap store0 "m0" "m1" 5).2
      (duplicatedOf origMap "m1" 5) 7) "m0" = some origMap :=
  have h := (duplicateMap_deep_copies store0 "m0" "m1" 5 7).1 origMap (by decide)
  have h2 := h.2.2 (by decide)
  ⟨h.1, h.2.1, h2.1, h2.2.1, h2.2.2 (duplicatedOf origMap "m1" 5) (by decide)⟩
